import Mathlib

/-!
Verification of the classification core of `src/bin/sra_filtering.py`
(querysra).  The Python functions are embedded shallowly: rows are
`List String`, the parsed table is `List (List String)`, keyword lists are
`List String`, and the class-keyword mapping is an ordered
`List (List String)` (one keyword list per class, in mapping order).
Python's `list.index`-based field resolution and `run[idx]` access are
modelled with `List.indexOf` and `List.getD` (the claims under study never
exercise the out-of-range/absent-column paths, which in Python raise and
which the spec classifies as structural errors outside the filter/classify
contract).
-/

namespace QuerySra

/-- Python `str.lower()` on the character sequence of a string. -/
def lowerChars (s : String) : List Char := s.data.map Char.toLower

/-- Auxiliary for substring containment: does `needle` occur at the head of
`hay`? -/
def startsWithChars : List Char → List Char → Bool
  | _, [] => true
  | [], _ :: _ => false
  | a :: hs, b :: ns => a == b && startsWithChars hs ns

/-- Python's `needle in hay` on character lists: `needle` occurs contiguously
somewhere in `hay` (the empty needle always occurs). -/
def containsChars : List Char → List Char → Bool
  | [], needle => startsWithChars [] needle
  | c :: hs, needle => startsWithChars (c :: hs) needle || containsChars hs needle

/-- Model of `keyword.lower() in field.lower()` (line 141 of
`sra_filtering.py`): case-insensitive substring containment. -/
def containsCI (field keyword : String) : Bool :=
  containsChars (lowerChars field) (lowerChars keyword)

/-- Inner keyword loop of `is_key_in_run` (lines 140-142): the first keyword
of `keyword_list` contained (case-insensitively) in `field`, if any. -/
def firstKeyword (field : String) : List String → Option String
  | [] => none
  | keyword :: rest =>
    if containsCI field keyword then some keyword else firstKeyword field rest

/-- `is_key_in_run` (lines 130-143): scan the designated fields in order, and
within each field the keywords in order; return `(true, keyword)` at the
first hit, `(false, "")` if there is none.  `run[idx]` is modelled by
`run.getD idx ""`. -/
def is_key_in_run (run : List String) (idx_fields_to_search : List Nat)
    (keyword_list : List String) : Bool × String :=
  match idx_fields_to_search with
  | [] => (false, "")
  | idx :: rest =>
    match firstKeyword (run.getD idx "") keyword_list with
    | some keyword => (true, keyword)
    | none => is_key_in_run run rest keyword_list

/-- Loop of `filter_samples` (lines 159-164): partition the table into
(excluded, included) by blacklist hit, preserving input order. -/
def filterRuns : List (List String) → List Nat → List String →
    List (List String) × List (List String)
  | [], _, _ => ([], [])
  | run :: rest, idxs, blacklist =>
    let pr := filterRuns rest idxs blacklist
    if (is_key_in_run run idxs blacklist).1 then (run :: pr.1, pr.2)
    else (pr.1, run :: pr.2)

/-- `filter_samples` (lines 146-165).  The source resolves the designated
field names to indices with `col_names.index` (raising on an absent column,
a structural error per the spec); here `List.indexOf` performs the
resolution. -/
def filter_samples (sra_relation : List (List String)) (col_names : List String)
    (fields_to_search : List String) (blacklist : List String) :
    List (List String) × List (List String) :=
  filterRuns sra_relation (fields_to_search.map (fun f => col_names.indexOf f)) blacklist

/-- Per-row class loop of `classify_runs` (lines 183-187): fold over the
class keyword lists, appending each class's identified keyword to the row as
the loop goes (`run = run + [class_key]`), and collecting the per-class
match booleans.  Returns the grown row and the boolean overview. -/
def classifyRow : List String → List Nat → List (List String) →
    List String × List Bool
  | run, _, [] => (run, [])
  | run, idxs, keywords_class_list :: rest =>
    let pr := is_key_in_run run idxs keywords_class_list
    let out := classifyRow (run ++ [pr.2]) idxs rest
    (out.1, pr.1 :: out.2)

/-- Python `part_of_class_overview.index(True)` (line 195): index of the
first `true`.  Only evaluated when a `true` is present (the `else` branch of
the classifier guarantees exactly one). -/
def idxOfTrue : List Bool → Nat
  | [] => 0
  | b :: bs => if b then 0 else idxOfTrue bs + 1

/-- `classified_runs[i].append run` (line 195): cons `run` onto the `i`-th
per-class bucket (the recursion over the remaining rows makes this the
order-preserving rendering of Python's forward append). -/
def consAt : List (List (List String)) → Nat → List String →
    List (List (List String))
  | [], _, _ => []
  | l :: ls, 0, run => (run :: l) :: ls
  | l :: ls, n + 1, run => l :: consAt ls n run

/-- Loop of `classify_runs` (lines 182-196): route every row to the
per-class bucket of its unique match, to `unresolved` (two or more matches)
or to `undefined` (no match), after appending one identified keyword per
class. -/
def classifyLoop : List (List String) → List Nat → List (List String) →
    List (List (List String)) × List (List String) × List (List String)
  | [], _, list_of_keyword_lists =>
    (list_of_keyword_lists.map (fun _ => ([] : List (List String))), [], [])
  | run :: rest, idxs, kls =>
    let acc := classifyLoop rest idxs kls
    let rowres := classifyRow run idxs kls
    if rowres.2.count true = 0 then
      (acc.1, acc.2.1, rowres.1 :: acc.2.2)
    else if 1 < rowres.2.count true then
      (acc.1, rowres.1 :: acc.2.1, acc.2.2)
    else
      (consAt acc.1 (idxOfTrue rowres.2) rowres.1, acc.2.1, acc.2.2)

/-- `classify_runs` (lines 168-197), with field-name resolution as in
`filter_samples`. -/
def classify_runs (runs : List (List String)) (col_names : List String)
    (fields_to_search : List String) (list_of_keyword_lists : List (List String)) :
    List (List (List String)) × List (List String) × List (List String) :=
  classifyLoop runs (fields_to_search.map (fun f => col_names.indexOf f))
    list_of_keyword_lists

/-- Sequence of identified keywords a row accumulates during the class loop
(the second components of the successive `is_key_in_run` calls, each made on
the row as grown so far). -/
def keysOf : List String → List Nat → List (List String) → List String
  | _, _, [] => []
  | run, idxs, kws :: rest =>
    (is_key_in_run run idxs kws).2 ::
      keysOf (run ++ [(is_key_in_run run idxs kws).2]) idxs rest

/-- Per-class match booleans a row accumulates during the class loop. -/
def boolsOf : List String → List Nat → List (List String) → List Bool
  | _, _, [] => []
  | run, idxs, kws :: rest =>
    (is_key_in_run run idxs kws).1 ::
      boolsOf (run ++ [(is_key_in_run run idxs kws).2]) idxs rest

/-- Row emitted by the classifier for an input row: the row with its
identified-keyword suffix. -/
def outOf (run : List String) (idxs : List Nat) (kls : List (List String)) :
    List String :=
  run ++ keysOf run idxs kls

/-! ## Access-Status Enricher (lines 308-409)

The two NCBI lookups are modelled as oracles `String → ParseResult`: the
argument is the query key (run accession for `esearch`, internal id for
`esummary`), the result is the outcome of `xmltodict.parse` on the response
body.  `ParseResult.expatError` is the exception `xmltodict` raises on
malformed XML (an `ExpatError`, which is not an `IOError`);
`ParseResult.ioError` is an `IOError` raised during parsing. -/

/-- Parsed XML document as `xmltodict` delivers it: nested string-keyed
dictionaries, lists for repeated elements, text leaves. -/
inductive Xml where
  | text (s : String)
  | node (fields : List (String × Xml))
  | arr (items : List Xml)

/-- Python `data[key]` on a parsed dictionary; `none` models the `KeyError`
/ `TypeError` swallowed by the bare `except` blocks of the source. -/
def Xml.lookup : Xml → String → Option Xml
  | Xml.node fields, key => (fields.find? (fun p => p.1 == key)).map Prod.snd
  | _, _ => none

/-- Python `data[i]` on a list value. -/
def Xml.atIdx : Xml → Nat → Option Xml
  | Xml.arr items, i => items.get? i
  | _, _ => none

/-- Text content of a leaf. -/
def Xml.asText : Xml → Option String
  | Xml.text s => some s
  | _ => none

/-- Outcome of `xmltodict.parse(response.data)`. -/
inductive ParseResult where
  | ok (data : Xml)
  | ioError
  | expatError

/-- Uncaught Python exceptions escaping the enrichment stage. -/
inductive PyErr where
  | expatError
  | valueError
deriving DecidableEq

/-- Extraction `data['eSearchResult']['IdList']['Id']` (line 322). -/
def extractId (data : Xml) : Option String :=
  ((data.lookup "eSearchResult").bind (fun x => Xml.lookup x "IdList")).bind
    (fun x => (Xml.lookup x "Id").bind Xml.asText)

/-- Extraction `data['eSummaryResult']['DocSum']['Item'][i]['#text']`
(lines 351 and 358). -/
def itemText (data : Xml) (i : Nat) : Option String :=
  ((((data.lookup "eSummaryResult").bind (fun x => Xml.lookup x "DocSum")).bind
      (fun x => Xml.lookup x "Item")).bind (fun x => Xml.atIdx x i)).bind
    Xml.asText

/-- `get_id_from_accn` (lines 308-327).  The `try` around the parse catches
only `IOError`, so an `ExpatError` from malformed XML propagates
(`Except.error`).  On a caught `IOError` the name `data` stays unbound and
the subsequent lookup raises `NameError`, which the bare `except` of the
second `try` turns into `id = "-1"`; the same bare `except` maps any failed
extraction to `"-1"`. -/
def get_id_from_accn (accn : String) (esearch : String → ParseResult) :
    Except PyErr String :=
  match esearch accn with
  | ParseResult.expatError => Except.error PyErr.expatError
  | ParseResult.ioError => Except.ok "-1"
  | ParseResult.ok data =>
    match extractId data with
    | some id => Except.ok id
    | none => Except.ok "-1"

/-- Python `str.find`: index of the first occurrence of `needle`, `-1` when
absent, counted from `k`. -/
def pyFindAux : List Char → List Char → Nat → Int
  | [], needle, k => if startsWithChars [] needle then (k : Int) else -1
  | c :: t, needle, k =>
    if startsWithChars (c :: t) needle then (k : Int) else pyFindAux t needle (k + 1)

/-- Python `s.find(sub)`. -/
def pyFind (s sub : String) : Int := pyFindAux s.data sub.data 0

/-- Python slice `s[i:]` (negative start counts from the end, clamped). -/
def pySliceFrom (s : String) (i : Int) : String :=
  if 0 ≤ i then String.mk (s.data.drop i.toNat)
  else String.mk (s.data.drop (s.data.length - (-i).toNat))

/-- Python slice `s[:i]` (negative stop counts from the end, clamped). -/
def pySliceTo (s : String) (i : Int) : String :=
  if 0 ≤ i then String.mk (s.data.take i.toNat)
  else String.mk (s.data.take (s.data.length - (-i).toNat))

/-- `get_access_info` (lines 330-371), returning the Python tuple as a list
of strings together with the number of network requests issued.  For the
sentinel id `"-1"` the source returns the 3-tuple `("", "", "")` before
building any URL (zero requests); otherwise it issues one request, parses it
under a bare `except` (every failure caught), and extracts
`is_controlled` and `cluster_info`, each falling back under its own bare
`except` when the parsed data (or the unbound `info`) is unusable.  The
source's unused `accn`/`api_key` parameters are omitted. -/
def get_access_info (id : String) (esummary : String → ParseResult) :
    List String × Nat :=
  if id == "-1" then (["", "", ""], 0)
  else
    let parsed : Option Xml :=
      match esummary id with
      | ParseResult.ok data => some data
      | ParseResult.ioError => none
      | ParseResult.expatError => none
    let is_controlled :=
      match (parsed.bind (fun d => itemText d 0)).map
          (fun s => String.mk (lowerChars s)) with
      | some summary =>
        if containsChars summary.data ("controlled".data) then "controlled"
        else "public"
      | none => ""
    let cluster_info :=
      match parsed.bind (fun d => itemText d 1) with
      | some info =>
        let search_str := "cluster_name=\""
        let cn := pySliceFrom info (pyFind info search_str + (search_str.length : Int))
        pySliceTo cn (pyFind cn "\"")
      | none => ""
    ([is_controlled, cluster_info], 1)

/-- Python tuple unpacking `a, b = t` (line 386): succeeds only on a
2-tuple, otherwise raises `ValueError`. -/
def unpackPair (t : List String) : Except PyErr (String × String) :=
  match t with
  | [a, b] => Except.ok (a, b)
  | _ => Except.error PyErr.valueError

/-- The two remote lookups of the enrichment stage. -/
structure Remote where
  esearch : String → ParseResult
  esummary : String → ParseResult

/-- First loop of `check_access_status` (lines 375-388) over one class:
collect each new project accession (`run[58]`), resolve the id from the run
accession (`run[7]`), fetch the access info and record it in the
project-access dictionary.  Uncaught exceptions (`ExpatError` from the id
lookup, `ValueError` from unpacking the 3-tuple) abort the stage. -/
def buildProjectAccess (runs : List (List String)) (remote : Remote)
    (all_projects : List String) (project_access : List (String × String)) :
    Except PyErr (List String × List (String × String)) :=
  match runs with
  | [] => Except.ok (all_projects, project_access)
  | run :: rest =>
    let project_accession := run.getD 58 ""
    if all_projects.contains project_accession then
      buildProjectAccess rest remote all_projects project_access
    else
      match get_id_from_accn (run.getD 7 "") remote.esearch with
      | Except.error e => Except.error e
      | Except.ok run_id =>
        match unpackPair (get_access_info run_id remote.esummary).1 with
        | Except.error e => Except.error e
        | Except.ok pr =>
          buildProjectAccess rest remote (all_projects ++ [project_accession])
            (project_access ++ [(project_accession, pr.1)])

/-- First loop of `check_access_status` over all classes. -/
def buildProjectAccessAll (classes : List (List (List String))) (remote : Remote)
    (all_projects : List String) (project_access : List (String × String)) :
    Except PyErr (List String × List (String × String)) :=
  match classes with
  | [] => Except.ok (all_projects, project_access)
  | c :: rest =>
    match buildProjectAccess c remote all_projects project_access with
    | Except.error e => Except.error e
    | Except.ok st => buildProjectAccessAll rest remote st.1 st.2

/-- Inner loop of the re-partition phase (lines 398-405): split one class's
runs into (public, controlled) by the cached status of `run[58]`, silently
dropping runs with any other status. -/
def splitByAccess : List (List String) → (String → String) →
    List (List String) × List (List String)
  | [], _ => ([], [])
  | run :: rest, project_access =>
    let pr := splitByAccess rest project_access
    if project_access (run.getD 58 "") == "controlled" then (pr.1, run :: pr.2)
    else if project_access (run.getD 58 "") == "public" then (run :: pr.1, pr.2)
    else (pr.1, pr.2)

/-- Re-partition phase of `check_access_status` (lines 390-407): `zip` over
classes and names (truncating at the shorter), emitting per class the public
bucket, the controlled bucket, and the two derived names. -/
def repartitionByAccess : List (List (List String)) → List String →
    (String → String) → List (List (List String)) × List String
  | [], _, _ => ([], [])
  | _ :: _, [], _ => ([], [])
  | runs_of_class :: restRuns, class_name :: restNames, project_access =>
    let acc := repartitionByAccess restRuns restNames project_access
    let pr := splitByAccess runs_of_class project_access
    (pr.1 :: pr.2 :: acc.1,
      (class_name ++ "_public") :: (class_name ++ "_controlled_access") :: acc.2)

/-- Python `project_access[key]` in the re-partition loop; the key is always
present there (phase one visited every project), so the `""` default is
never the result on the paths the source takes. -/
def dictGet (d : List (String × String)) (key : String) : String :=
  ((d.find? (fun p => p.1 == key)).map Prod.snd).getD ""

/-- `check_access_status` (lines 374-409): build the project-access cache
via the remote lookups, then re-partition every class into public /
controlled-access buckets. -/
def check_access_status (classified_runs : List (List (List String)))
    (all_class_names : List String) (remote : Remote) :
    Except PyErr (List (List (List String)) × List String) :=
  match buildProjectAccessAll classified_runs remote [] [] with
  | Except.error e => Except.error e
  | Except.ok st =>
    Except.ok (repartitionByAccess classified_runs all_class_names (dictGet st.2))

example : containsCI "QC_fail_sample" "qc_fail" = true := by decide

example : is_key_in_run ["abc", "tumor x"] [1, 0] ["blood", "tumor"] =
    (true, "tumor") := by decide

example :
    filterRuns [["qc_fail_sample"], ["ok"]] [0] ["qc_fail"] =
      ([["qc_fail_sample"]], [["ok"]]) := by decide

example :
    classifyLoop [["tumor s"], ["blood tumor"], ["water"]] [0]
        [["tumor"], ["blood"]] =
      ([[["tumor s", "tumor", ""]], []], [["blood tumor", "tumor", "blood"]],
        [["water", "", ""]]) := by decide

/-- Destination of a row in the classifier's branch structure
(lines 190-195): undefined on zero matches, unresolved on two or more,
otherwise the per-class bucket of the first (unique) match. -/
inductive RunDest where
  | toUndefined
  | toUnresolved
  | toClass (i : Nat)
deriving DecidableEq

/-- Branch taken by `classify_runs` for a row, as a function of the
per-class match booleans only. -/
def runDest (run : List String) (idxs : List Nat)
    (kls : List (List String)) : RunDest :=
  if (boolsOf run idxs kls).count true = 0 then RunDest.toUndefined
  else if 1 < (boolsOf run idxs kls).count true then RunDest.toUnresolved
  else RunDest.toClass (idxOfTrue (boolsOf run idxs kls))

/-! ## Helper lemmas -/

theorem list_getD_mem {α : Type} (l : List α) (n : Nat) (d : α)
    (h : n < l.length) : l.getD n d ∈ l := by
  induction l generalizing n with
  | nil => simp at h
  | cons a t ih =>
    cases n with
    | zero => simp
    | succ m =>
      rw [List.getD_cons_succ]
      exact List.mem_cons_of_mem _ (ih m (by simpa using h))

theorem firstKeyword_eq_none (field : String) (kws : List String) :
    firstKeyword field kws = none ↔ ∀ k ∈ kws, containsCI field k = false := by
  induction kws with
  | nil => simp [firstKeyword]
  | cons a rest ih =>
    by_cases h : containsCI field a = true
    · simp [firstKeyword, h]
    · simp only [firstKeyword, if_neg h, ih, List.mem_cons]
      constructor
      · intro hall k hk
        rcases hk with rfl | hk
        · simpa using h
        · exact hall k hk
      · intro hall k hk
        exact hall k (Or.inr hk)

theorem firstKeyword_eq_some (field : String) (kws : List String) (k : String)
    (h : firstKeyword field kws = some k) :
    ∃ n, n < kws.length ∧ kws.getD n "" = k ∧ containsCI field k = true ∧
      ∀ m, m < n → containsCI field (kws.getD m "") = false := by
  induction kws with
  | nil => simp [firstKeyword] at h
  | cons a rest ih =>
    by_cases ha : containsCI field a = true
    · rw [firstKeyword, if_pos ha, Option.some_inj] at h
      exact ⟨0, by simp, by simpa using h, h ▸ ha, fun m hm => by omega⟩
    · rw [firstKeyword, if_neg ha] at h
      obtain ⟨n, hn, hk, hc, hall⟩ := ih h
      refine ⟨n + 1, by simpa using hn, by simpa using hk, hc, fun m hm => ?_⟩
      cases m with
      | zero => simpa using ha
      | succ m' => simpa using hall m' (by omega)

theorem iskir_fst_false_iff (run : List String) (idxs : List Nat)
    (kws : List String) :
    (is_key_in_run run idxs kws).1 = false ↔
      ∀ i ∈ idxs, ∀ k ∈ kws, containsCI (run.getD i "") k = false := by
  induction idxs with
  | nil => simp [is_key_in_run]
  | cons i rest ih =>
    cases hfk : firstKeyword (run.getD i "") kws with
    | some k =>
      obtain ⟨n, hn, hk, hc, _⟩ := firstKeyword_eq_some _ _ _ hfk
      simp only [is_key_in_run, hfk]
      constructor
      · intro h; simp at h
      · intro hall
        have := hall i (List.mem_cons_self i rest) k (hk ▸ list_getD_mem kws n "" hn)
        rw [this] at hc; simp at hc
    | none =>
      have hnone := (firstKeyword_eq_none _ _).mp hfk
      simp only [is_key_in_run, hfk, ih]
      constructor
      · intro hall j hj k hk
        rcases List.mem_cons.mp hj with rfl | hj'
        · exact hnone k hk
        · exact hall j hj' k hk
      · intro hall j hj k hk
        exact hall j (List.mem_cons_of_mem _ hj) k hk

theorem iskir_fst_true_iff (run : List String) (idxs : List Nat)
    (kws : List String) :
    (is_key_in_run run idxs kws).1 = true ↔
      ∃ i ∈ idxs, ∃ k ∈ kws, containsCI (run.getD i "") k = true := by
  cases hb : (is_key_in_run run idxs kws).1 with
  | false =>
    have hall := (iskir_fst_false_iff run idxs kws).mp hb
    constructor
    · intro h; simp at h
    · rintro ⟨i, hi, k, hk, hc⟩
      rw [hall i hi k hk] at hc
      simp at hc
  | true =>
    constructor
    · intro _
      by_contra hc
      push_neg at hc
      have hfalse : ∀ i ∈ idxs, ∀ k ∈ kws, containsCI (run.getD i "") k = false := by
        intro i hi k hk
        cases hcc : containsCI (run.getD i "") k with
        | false => rfl
        | true => exact absurd hcc (hc i hi k hk)
      have := (iskir_fst_false_iff run idxs kws).mpr hfalse
      rw [hb] at this
      simp at this
    · intro _; rfl

theorem iskir_eq_of_fst_false (run : List String) (idxs : List Nat)
    (kws : List String) (h : (is_key_in_run run idxs kws).1 = false) :
    is_key_in_run run idxs kws = (false, "") := by
  induction idxs with
  | nil => rfl
  | cons i rest ih =>
    cases hfk : firstKeyword (run.getD i "") kws with
    | some k =>
      simp only [is_key_in_run, hfk] at h
      simp at h
    | none =>
      simp only [is_key_in_run, hfk] at h ⊢
      exact ih h

theorem filterRuns_eq (runs : List (List String)) (idxs : List Nat)
    (bl : List String) :
    filterRuns runs idxs bl =
      (runs.filter (fun r => (is_key_in_run r idxs bl).1),
        runs.filter (fun r => !(is_key_in_run r idxs bl).1)) := by
  induction runs with
  | nil => rfl
  | cons r rest ih =>
    cases hb : (is_key_in_run r idxs bl).1 with
    | true => simp [filterRuns, ih, List.filter_cons, hb]
    | false => simp [filterRuns, ih, List.filter_cons, hb]

theorem classifyRow_eq (run : List String) (idxs : List Nat)
    (kls : List (List String)) :
    classifyRow run idxs kls = (outOf run idxs kls, boolsOf run idxs kls) := by
  induction kls generalizing run with
  | nil => simp [classifyRow, keysOf, boolsOf, outOf]
  | cons kws rest ih =>
    simp [classifyRow, keysOf, boolsOf, outOf, ih, List.append_assoc]

theorem keysOf_length (run : List String) (idxs : List Nat)
    (kls : List (List String)) : (keysOf run idxs kls).length = kls.length := by
  induction kls generalizing run with
  | nil => rfl
  | cons kws rest ih => simp [keysOf, ih]

theorem boolsOf_length (run : List String) (idxs : List Nat)
    (kls : List (List String)) : (boolsOf run idxs kls).length = kls.length := by
  induction kls generalizing run with
  | nil => rfl
  | cons kws rest ih => simp [boolsOf, ih]

theorem outOf_take (run : List String) (idxs : List Nat)
    (kls : List (List String)) : (outOf run idxs kls).take run.length = run := by
  simp [outOf, List.take_left]

theorem outOf_length (run : List String) (idxs : List Nat)
    (kls : List (List String)) :
    (outOf run idxs kls).length = run.length + kls.length := by
  simp [outOf, keysOf_length]

theorem outOf_inj {r1 r2 : List String} {idxs : List Nat}
    {kls : List (List String)}
    (h : outOf r1 idxs kls = outOf r2 idxs kls) : r1 = r2 := by
  have hlen : r1.length = r2.length := by
    have := congrArg List.length h
    rw [outOf_length, outOf_length] at this
    omega
  have := congrArg (List.take r1.length) h
  rwa [outOf_take, hlen, outOf_take] at this

theorem idxOfTrue_lt (bs : List Bool) (h : bs.count true ≠ 0) :
    idxOfTrue bs < bs.length := by
  induction bs with
  | nil => simp at h
  | cons b t ih =>
    cases b with
    | true => simp [idxOfTrue]
    | false =>
      rw [List.count_cons] at h
      simp only [idxOfTrue]
      have := ih (by simpa using h)
      simpa using this

theorem consAt_length (ls : List (List (List String))) (n : Nat)
    (x : List String) : (consAt ls n x).length = ls.length := by
  induction ls generalizing n with
  | nil => rfl
  | cons l t ih =>
    cases n with
    | zero => rfl
    | succ m => simp [consAt, ih]

theorem consAt_getD_self (ls : List (List (List String))) (n : Nat)
    (x : List String) (h : n < ls.length) :
    (consAt ls n x).getD n [] = x :: ls.getD n [] := by
  induction ls generalizing n with
  | nil => simp at h
  | cons l t ih =>
    cases n with
    | zero => rfl
    | succ m =>
      simp only [consAt, List.getD_cons_succ]
      exact ih m (by simpa using h)

theorem consAt_getD_ne (ls : List (List (List String))) (n m : Nat)
    (x : List String) (h : n ≠ m) :
    (consAt ls n x).getD m [] = ls.getD m [] := by
  induction ls generalizing n m with
  | nil => cases m <;> rfl
  | cons l t ih =>
    cases n with
    | zero =>
      cases m with
      | zero => exact absurd rfl h
      | succ m' => rfl
    | succ n' =>
      cases m with
      | zero => rfl
      | succ m' =>
        simp only [consAt, List.getD_cons_succ]
        exact ih n' m' (by omega)

theorem getD_map_const (kls : List (List String)) (i : Nat) :
    (kls.map (fun _ => ([] : List (List String)))).getD i [] = [] := by
  induction kls generalizing i with
  | nil => cases i <;> rfl
  | cons a t ih =>
    cases i with
    | zero => rfl
    | succ n => rw [List.map_cons, List.getD_cons_succ]; exact ih n

theorem classifyLoop_fst_length (runs : List (List String)) (idxs : List Nat)
    (kls : List (List String)) :
    (classifyLoop runs idxs kls).1.length = kls.length := by
  induction runs with
  | nil => simp [classifyLoop]
  | cons r rest ih =>
    simp only [classifyLoop]
    by_cases h0 : (classifyRow r idxs kls).2.count true = 0
    · simpa [h0] using ih
    · by_cases h1 : 1 < (classifyRow r idxs kls).2.count true
      · simpa [h0, h1] using ih
      · simpa [h0, h1, consAt_length] using ih

theorem classifyLoop_undef (runs : List (List String)) (idxs : List Nat)
    (kls : List (List String)) :
    (classifyLoop runs idxs kls).2.2 =
      (runs.filter
          (fun r => decide ((boolsOf r idxs kls).count true = 0))).map
        (fun r => outOf r idxs kls) := by
  induction runs with
  | nil => rfl
  | cons r rest ih =>
    simp only [classifyLoop, classifyRow_eq, List.filter_cons]
    by_cases h0 : (boolsOf r idxs kls).count true = 0
    · simp [h0, ih]
    · by_cases h1 : 1 < (boolsOf r idxs kls).count true
      · simp [h0, h1, ih]
      · simp [h0, h1, ih]

theorem classifyLoop_unres (runs : List (List String)) (idxs : List Nat)
    (kls : List (List String)) :
    (classifyLoop runs idxs kls).2.1 =
      (runs.filter
          (fun r => decide (1 < (boolsOf r idxs kls).count true))).map
        (fun r => outOf r idxs kls) := by
  induction runs with
  | nil => rfl
  | cons r rest ih =>
    simp only [classifyLoop, classifyRow_eq, List.filter_cons]
    by_cases h0 : (boolsOf r idxs kls).count true = 0
    · have hnot : ¬1 < (boolsOf r idxs kls).count true := by omega
      simp [h0, hnot, ih]
    · by_cases h1 : 1 < (boolsOf r idxs kls).count true
      · simp [h0, h1, ih]
      · simp [h0, h1, ih]

theorem classifyLoop_class (runs : List (List String)) (idxs : List Nat)
    (kls : List (List String)) (i : Nat) :
    (classifyLoop runs idxs kls).1.getD i [] =
      (runs.filter
          (fun r => decide ((boolsOf r idxs kls).count true = 1 ∧
            idxOfTrue (boolsOf r idxs kls) = i))).map
        (fun r => outOf r idxs kls) := by
  induction runs with
  | nil => simp [classifyLoop, getD_map_const]
  | cons r rest ih =>
    simp only [classifyLoop, classifyRow_eq, List.filter_cons]
    by_cases h0 : (boolsOf r idxs kls).count true = 0
    · simpa [h0] using ih
    · by_cases h1 : 1 < (boolsOf r idxs kls).count true
      · have hne1 : ¬(boolsOf r idxs kls).count true = 1 := by omega
        simpa [h0, h1, hne1] using ih
      · have hc1 : (boolsOf r idxs kls).count true = 1 := by omega
        have hlt : idxOfTrue (boolsOf r idxs kls) <
            (classifyLoop rest idxs kls).1.length := by
          rw [classifyLoop_fst_length, ← boolsOf_length r idxs kls]
          exact idxOfTrue_lt _ (by omega)
        by_cases hij : idxOfTrue (boolsOf r idxs kls) = i
        · have hcons := consAt_getD_self (classifyLoop rest idxs kls).1 i
            (outOf r idxs kls) (hij ▸ hlt)
          simp only [if_neg h0, if_neg h1, hij, hcons, ih]
          simp [hc1]
        · have hne := consAt_getD_ne (classifyLoop rest idxs kls).1
            (idxOfTrue (boolsOf r idxs kls)) i (outOf r idxs kls) hij
          simp only [if_neg h0, if_neg h1, hne]
          simpa [hc1, hij] using ih

theorem flatten_map_const_nil (kls : List (List String)) :
    (kls.map (fun _ => ([] : List (List String)))).flatten = [] := by
  induction kls with
  | nil => rfl
  | cons a t ih => simp [ih]

theorem consAt_flatten_perm (C : List (List (List String))) (j : Nat)
    (x : List String) (h : j < C.length) :
    List.Perm (consAt C j x).flatten (x :: C.flatten) := by
  induction C generalizing j with
  | nil => simp at h
  | cons c t ih =>
    cases j with
    | zero => simp [consAt]
    | succ n =>
      simp only [consAt, List.flatten_cons]
      exact ((ih n (by simpa using h)).append_left c).trans List.perm_middle

theorem classifyLoop_perm (runs : List (List String)) (idxs : List Nat)
    (kls : List (List String)) :
    List.Perm
      ((classifyLoop runs idxs kls).1.flatten ++ (classifyLoop runs idxs kls).2.1
        ++ (classifyLoop runs idxs kls).2.2)
      (runs.map (fun r => outOf r idxs kls)) := by
  induction runs with
  | nil => simp [classifyLoop, flatten_map_const_nil]
  | cons r rest ih =>
    by_cases h0 : (boolsOf r idxs kls).count true = 0
    · have hstep : classifyLoop (r :: rest) idxs kls =
          ((classifyLoop rest idxs kls).1, (classifyLoop rest idxs kls).2.1,
            outOf r idxs kls :: (classifyLoop rest idxs kls).2.2) := by
        simp [classifyLoop, classifyRow_eq, h0]
      rw [hstep]
      exact List.perm_middle.trans (ih.cons (outOf r idxs kls))
    · by_cases h1 : 1 < (boolsOf r idxs kls).count true
      · have hstep : classifyLoop (r :: rest) idxs kls =
            ((classifyLoop rest idxs kls).1,
              outOf r idxs kls :: (classifyLoop rest idxs kls).2.1,
              (classifyLoop rest idxs kls).2.2) := by
          simp [classifyLoop, classifyRow_eq, h0, h1]
        rw [hstep]
        exact (List.perm_middle.append_right _).trans (ih.cons (outOf r idxs kls))
      · have hstep : classifyLoop (r :: rest) idxs kls =
            (consAt (classifyLoop rest idxs kls).1
              (idxOfTrue (boolsOf r idxs kls)) (outOf r idxs kls),
              (classifyLoop rest idxs kls).2.1,
              (classifyLoop rest idxs kls).2.2) := by
          simp [classifyLoop, classifyRow_eq, h0, h1]
        have hlt : idxOfTrue (boolsOf r idxs kls) <
            (classifyLoop rest idxs kls).1.length := by
          rw [classifyLoop_fst_length, ← boolsOf_length r idxs kls]
          exact idxOfTrue_lt _ h0
        rw [hstep]
        exact (((consAt_flatten_perm _ _ _ hlt).append_right _).append_right _).trans
          (ih.cons (outOf r idxs kls))

theorem mem_undef_iff (runs : List (List String)) (idxs : List Nat)
    (kls : List (List String)) (x : List String) :
    x ∈ (classifyLoop runs idxs kls).2.2 ↔
      ∃ r ∈ runs, (boolsOf r idxs kls).count true = 0 ∧ x = outOf r idxs kls := by
  rw [classifyLoop_undef]
  simp only [List.mem_map, List.mem_filter, decide_eq_true_eq]
  constructor
  · rintro ⟨r, ⟨hr, hc⟩, rfl⟩; exact ⟨r, hr, hc, rfl⟩
  · rintro ⟨r, hr, hc, rfl⟩; exact ⟨r, ⟨hr, hc⟩, rfl⟩

theorem mem_unres_iff (runs : List (List String)) (idxs : List Nat)
    (kls : List (List String)) (x : List String) :
    x ∈ (classifyLoop runs idxs kls).2.1 ↔
      ∃ r ∈ runs, 1 < (boolsOf r idxs kls).count true ∧ x = outOf r idxs kls := by
  rw [classifyLoop_unres]
  simp only [List.mem_map, List.mem_filter, decide_eq_true_eq]
  constructor
  · rintro ⟨r, ⟨hr, hc⟩, rfl⟩; exact ⟨r, hr, hc, rfl⟩
  · rintro ⟨r, hr, hc, rfl⟩; exact ⟨r, ⟨hr, hc⟩, rfl⟩

theorem mem_class_iff (runs : List (List String)) (idxs : List Nat)
    (kls : List (List String)) (i : Nat) (x : List String) :
    x ∈ (classifyLoop runs idxs kls).1.getD i [] ↔
      ∃ r ∈ runs, (boolsOf r idxs kls).count true = 1 ∧
        idxOfTrue (boolsOf r idxs kls) = i ∧ x = outOf r idxs kls := by
  rw [classifyLoop_class]
  simp only [List.mem_map, List.mem_filter, decide_eq_true_eq]
  constructor
  · rintro ⟨r, ⟨hr, hc, hi⟩, rfl⟩; exact ⟨r, hr, hc, hi, rfl⟩
  · rintro ⟨r, hr, hc, hi, rfl⟩; exact ⟨r, ⟨hr, hc, hi⟩, rfl⟩

theorem exists_src_of_mem_parts (runs : List (List String)) (idxs : List Nat)
    (kls : List (List String)) (x : List String)
    (hx : x ∈ (classifyLoop runs idxs kls).1.flatten ++
        (classifyLoop runs idxs kls).2.1 ++ (classifyLoop runs idxs kls).2.2) :
    ∃ r ∈ runs, x = outOf r idxs kls := by
  have hmem := ((classifyLoop_perm runs idxs kls).mem_iff).mp hx
  obtain ⟨r, hr, hout⟩ := List.mem_map.mp hmem
  exact ⟨r, hr, hout.symm⟩

theorem strip_outOf (r : List String) (idxs : List Nat)
    (kls : List (List String)) :
    (outOf r idxs kls).take ((outOf r idxs kls).length - kls.length) = r := by
  have hlen : (outOf r idxs kls).length - kls.length = r.length := by
    rw [outOf_length]; omega
  rw [hlen, outOf_take]

theorem iskir_nil_kws (run : List String) (idxs : List Nat) :
    is_key_in_run run idxs [] = (false, "") := by
  induction idxs with
  | nil => rfl
  | cons i rest ih => simpa [is_key_in_run, firstKeyword] using ih

theorem map_strip_of_map_out (inc : List (List String)) (idxs : List Nat)
    (kls : List (List String)) :
    ((inc.map (fun r => outOf r idxs kls)).map
        (fun x => x.take (x.length - kls.length))) = inc := by
  induction inc with
  | nil => rfl
  | cons a t ih => simp only [List.map_cons, strip_outOf, ih]

theorem keysOf_getD (run : List String) (idxs : List Nat)
    (kls : List (List String)) (i : Nat) (h : i < kls.length) :
    (keysOf run idxs kls).getD i "" =
      (is_key_in_run (run ++ (keysOf run idxs kls).take i) idxs
        (kls.getD i [])).2 := by
  induction kls generalizing run i with
  | nil => simp at h
  | cons kws rest ih =>
    cases i with
    | zero => simp [keysOf]
    | succ n =>
      have hrec := ih (run ++ [(is_key_in_run run idxs kws).2]) n
        (by simpa using h)
      simp only [keysOf, List.getD_cons_succ, List.take_succ_cons, hrec,
        List.append_assoc, List.singleton_append]

theorem boolsOf_getD (run : List String) (idxs : List Nat)
    (kls : List (List String)) (i : Nat) (h : i < kls.length) :
    (boolsOf run idxs kls).getD i false =
      (is_key_in_run (run ++ (keysOf run idxs kls).take i) idxs
        (kls.getD i [])).1 := by
  induction kls generalizing run i with
  | nil => simp at h
  | cons kws rest ih =>
    cases i with
    | zero => simp [keysOf, boolsOf]
    | succ n =>
      have hrec := ih (run ++ [(is_key_in_run run idxs kws).2]) n
        (by simpa using h)
      simp only [keysOf, boolsOf, List.getD_cons_succ, List.take_succ_cons,
        hrec, List.append_assoc, List.singleton_append]

theorem iskir_first (run : List String) (idxs : List Nat) (kws : List String)
    (h : (is_key_in_run run idxs kws).1 = true) :
    ∃ fi ki, fi < idxs.length ∧ ki < kws.length ∧
      (is_key_in_run run idxs kws).2 = kws.getD ki "" ∧
      containsCI (run.getD (idxs.getD fi 0) "") (kws.getD ki "") = true ∧
      (∀ fi2, fi2 < fi → ∀ k ∈ kws,
        containsCI (run.getD (idxs.getD fi2 0) "") k = false) ∧
      (∀ ki2, ki2 < ki →
        containsCI (run.getD (idxs.getD fi 0) "") (kws.getD ki2 "") = false) := by
  induction idxs with
  | nil => simp [is_key_in_run] at h
  | cons i rest ih =>
    cases hfk : firstKeyword (run.getD i "") kws with
    | some k =>
      obtain ⟨n, hn, hkeq, hc, hprev⟩ := firstKeyword_eq_some _ _ _ hfk
      refine ⟨0, n, by simp, hn, ?_, ?_, ?_, ?_⟩
      · simp only [is_key_in_run, hfk, hkeq]
      · rw [hkeq]; exact hc
      · intro fi2 hfi2; omega
      · intro ki2 hki2; simpa using hprev ki2 hki2
    | none =>
      have hnone := (firstKeyword_eq_none _ _).mp hfk
      have htail : (is_key_in_run run rest kws).1 = true := by
        simpa only [is_key_in_run, hfk] using h
      obtain ⟨fi, ki, hfi, hki, hsnd, hc, hfields, hkeys⟩ := ih htail
      refine ⟨fi + 1, ki, by simpa using hfi, hki, ?_, ?_, ?_, ?_⟩
      · simpa only [is_key_in_run, hfk] using hsnd
      · simpa using hc
      · intro fi2 hfi2 k hk
        cases fi2 with
        | zero => simpa using hnone k hk
        | succ m => simpa using hfields m (by omega) k hk
      · simpa using hkeys

/-! ## Claim theorems -/

/-- C3: the Sample Filter excludes a row if and only if at least one
designated search field contains, case-insensitively as a substring, at
least one blacklist keyword; a row with zero hits is included; with an empty
blacklist every row is included and with an empty table both partitions are
empty (the function is total, so no error arises for these inputs). -/
theorem filter_excludes_iff_blacklist_hit (table : List (List String))
    (idxs : List Nat) (blacklist : List String) :
    (∀ run ∈ table,
        (run ∈ (filterRuns table idxs blacklist).1 ↔
          ∃ i ∈ idxs, ∃ k ∈ blacklist, containsCI (run.getD i "") k = true)
        ∧ (run ∈ (filterRuns table idxs blacklist).2 ↔
          ¬∃ i ∈ idxs, ∃ k ∈ blacklist, containsCI (run.getD i "") k = true))
    ∧ filterRuns table idxs [] = ([], table)
    ∧ filterRuns [] idxs blacklist = ([], []) := by
  refine ⟨fun run hrun => ⟨?_, ?_⟩, ?_, rfl⟩
  · rw [filterRuns_eq]
    simp only [List.mem_filter, ← iskir_fst_true_iff]
    constructor
    · exact fun h => h.2
    · exact fun h => ⟨hrun, h⟩
  · rw [filterRuns_eq]
    simp only [List.mem_filter, ← iskir_fst_true_iff]
    constructor
    · intro h hc
      rw [hc] at h
      simp at h
    · intro h
      refine ⟨hrun, ?_⟩
      cases hb : (is_key_in_run run idxs blacklist).1 with
      | false => rfl
      | true => exact absurd hb h
  · rw [filterRuns_eq]
    have hall : ∀ r : List String, (is_key_in_run r idxs []).1 = false := by
      intro r; rw [iskir_nil_kws]
    simp [hall]

/-- C3 witness: on a concrete table, a row containing the blacklist keyword
is excluded. -/
theorem filter_excludes_iff_blacklist_hit_witness :
    ["qc_fail_sample"] ∈ (filterRuns [["qc_fail_sample"], ["ok"]] [0] ["qc_fail"]).1 :=
  ((filter_excludes_iff_blacklist_hit [["qc_fail_sample"], ["ok"]] [0]
        ["qc_fail"]).1 ["qc_fail_sample"] (by decide)).1.mpr
    ⟨0, by decide, "qc_fail", by decide, by decide⟩

/-- C5: blacklist filtering is monotone — extending the blacklist with one
more keyword keeps every excluded row excluded, and every row included under
the extended blacklist was already included under the original one. -/
theorem filter_blacklist_monotone (table : List (List String))
    (idxs : List Nat) (B : List String) (k : String) :
    (∀ run, run ∈ (filterRuns table idxs B).1 →
        run ∈ (filterRuns table idxs (B ++ [k])).1)
    ∧ (∀ run, run ∈ (filterRuns table idxs (B ++ [k])).2 →
        run ∈ (filterRuns table idxs B).2) := by
  constructor
  · intro run hrun
    rw [filterRuns_eq] at hrun ⊢
    rw [List.mem_filter] at hrun ⊢
    refine ⟨hrun.1, ?_⟩
    obtain ⟨i, hi, kw, hkw, hc⟩ := (iskir_fst_true_iff _ _ _).mp hrun.2
    exact (iskir_fst_true_iff _ _ _).mpr
      ⟨i, hi, kw, List.mem_append_left _ hkw, hc⟩
  · intro run hrun
    rw [filterRuns_eq] at hrun ⊢
    rw [List.mem_filter] at hrun ⊢
    refine ⟨hrun.1, ?_⟩
    have h2 := hrun.2
    cases hb : (is_key_in_run run idxs (B ++ [k])).1 with
    | true => rw [hb] at h2; simp at h2
    | false =>
      have hall := (iskir_fst_false_iff _ _ _).mp hb
      have : (is_key_in_run run idxs B).1 = false :=
        (iskir_fst_false_iff _ _ _).mpr
          (fun i hi kw hkw => hall i hi kw (List.mem_append_left _ hkw))
      simp [this]

/-- C5 witness: a concrete excluded row stays excluded after adding a
keyword, and a concretely still-included row was included before. -/
theorem filter_blacklist_monotone_witness :
    ["qc bad"] ∈ (filterRuns [["qc bad"], ["fine"]] [0] (["qc"] ++ ["zz"])).1
    ∧ ["fine"] ∈ (filterRuns [["qc bad"], ["fine"]] [0] ["qc"]).2 :=
  ⟨(filter_blacklist_monotone [["qc bad"], ["fine"]] [0] ["qc"] "zz").1
      ["qc bad"] (by decide),
    (filter_blacklist_monotone [["qc bad"], ["fine"]] [0] ["qc"] "zz").2
      ["fine"] (by decide)⟩

/-- C9: the filter and the classifier preserve input order — every output
partition is a filter of the input sequence (mapped, for the classifier,
through the keyword-appending transformation), hence keeps the rows in
their original relative order. -/
theorem filter_classify_preserve_order (table runs : List (List String))
    (idxs : List Nat) (bl : List String) (kls : List (List String)) (i : Nat) :
    (filterRuns table idxs bl).1 =
        table.filter (fun r => (is_key_in_run r idxs bl).1)
    ∧ (filterRuns table idxs bl).2 =
        table.filter (fun r => !(is_key_in_run r idxs bl).1)
    ∧ (classifyLoop runs idxs kls).2.2 =
        (runs.filter (fun r => decide ((boolsOf r idxs kls).count true = 0))).map
          (fun r => outOf r idxs kls)
    ∧ (classifyLoop runs idxs kls).2.1 =
        (runs.filter (fun r => decide (1 < (boolsOf r idxs kls).count true))).map
          (fun r => outOf r idxs kls)
    ∧ (classifyLoop runs idxs kls).1.getD i [] =
        (runs.filter (fun r => decide ((boolsOf r idxs kls).count true = 1 ∧
            idxOfTrue (boolsOf r idxs kls) = i))).map
          (fun r => outOf r idxs kls) := by
  refine ⟨?_, ?_, classifyLoop_undef runs idxs kls,
    classifyLoop_unres runs idxs kls, classifyLoop_class runs idxs kls i⟩
  · rw [filterRuns_eq]
  · rw [filterRuns_eq]

/-- C10: the classifier never modifies existing fields — the emitted row is
the input row followed by the appended identified-keyword fields, one per
class, and every row found in any output partition arises this way from an
input row. -/
theorem classify_preserves_original_fields (runs : List (List String))
    (idxs : List Nat) (kls : List (List String)) (r : List String) :
    ((classifyRow r idxs kls).1.take r.length = r
      ∧ (classifyRow r idxs kls).1 = r ++ keysOf r idxs kls
      ∧ (classifyRow r idxs kls).1.length = r.length + kls.length
      ∧ (keysOf r idxs kls).length = kls.length)
    ∧ (∀ x, (x ∈ (classifyLoop runs idxs kls).2.2
          ∨ x ∈ (classifyLoop runs idxs kls).2.1
          ∨ ∃ i, x ∈ (classifyLoop runs idxs kls).1.getD i []) →
        ∃ rr ∈ runs, x = rr ++ keysOf rr idxs kls ∧ x.take rr.length = rr) := by
  constructor
  · refine ⟨?_, ?_, ?_, keysOf_length r idxs kls⟩
    · rw [classifyRow_eq]; exact outOf_take r idxs kls
    · rw [classifyRow_eq]; rfl
    · rw [classifyRow_eq]; exact outOf_length r idxs kls
  · intro x hx
    have hsrc : ∃ rr ∈ runs, x = outOf rr idxs kls := by
      rcases hx with h | h | ⟨i, h⟩
      · obtain ⟨rr, hrr, _, hout⟩ := (mem_undef_iff runs idxs kls x).mp h
        exact ⟨rr, hrr, hout⟩
      · obtain ⟨rr, hrr, _, hout⟩ := (mem_unres_iff runs idxs kls x).mp h
        exact ⟨rr, hrr, hout⟩
      · obtain ⟨rr, hrr, _, _, hout⟩ := (mem_class_iff runs idxs kls i x).mp h
        exact ⟨rr, hrr, hout⟩
    obtain ⟨rr, hrr, hout⟩ := hsrc
    exact ⟨rr, hrr, hout, by rw [hout, outOf_take]⟩

/-- C10 witness: the concrete emitted row for a concrete input keeps the
original fields and carries the two appended keyword fields. -/
theorem classify_preserves_original_fields_witness :
    (classifyRow ["blood tumor"] [0] [["tumor"], ["blood"]]).1.take 1 =
        ["blood tumor"]
    ∧ ∃ rr ∈ [["blood tumor"]],
        (["blood tumor", "tumor", "blood"] : List String) =
          rr ++ keysOf rr [0] [["tumor"], ["blood"]] ∧
        (["blood tumor", "tumor", "blood"] : List String).take rr.length = rr :=
  ⟨(classify_preserves_original_fields [["blood tumor"]] [0]
        [["tumor"], ["blood"]] ["blood tumor"]).1.1,
    (classify_preserves_original_fields [["blood tumor"]] [0]
        [["tumor"], ["blood"]] ["blood tumor"]).2
      ["blood tumor", "tumor", "blood"] (Or.inr (Or.inl (by decide)))⟩

/-- C2: placement by the Run Classifier is determined solely by the number
of matching classes — zero matches puts the (suffix-extended) row in the
undefined partition and nowhere else, exactly one match puts it in that
class's partition and nowhere else, two or more matches put it in the
unresolved partition and in no per-class partition; no row is in both
undefined and unresolved. -/
theorem classify_count_determines_placement (runs : List (List String))
    (idxs : List Nat) (kls : List (List String)) :
    (∀ r ∈ runs,
        ((boolsOf r idxs kls).count true = 0 →
          outOf r idxs kls ∈ (classifyLoop runs idxs kls).2.2
          ∧ outOf r idxs kls ∉ (classifyLoop runs idxs kls).2.1
          ∧ ∀ i, outOf r idxs kls ∉ (classifyLoop runs idxs kls).1.getD i [])
        ∧ ((boolsOf r idxs kls).count true = 1 →
          outOf r idxs kls ∈
            (classifyLoop runs idxs kls).1.getD
              (idxOfTrue (boolsOf r idxs kls)) []
          ∧ (∀ j, j ≠ idxOfTrue (boolsOf r idxs kls) →
              outOf r idxs kls ∉ (classifyLoop runs idxs kls).1.getD j [])
          ∧ outOf r idxs kls ∉ (classifyLoop runs idxs kls).2.1
          ∧ outOf r idxs kls ∉ (classifyLoop runs idxs kls).2.2)
        ∧ (2 ≤ (boolsOf r idxs kls).count true →
          outOf r idxs kls ∈ (classifyLoop runs idxs kls).2.1
          ∧ outOf r idxs kls ∉ (classifyLoop runs idxs kls).2.2
          ∧ ∀ i, outOf r idxs kls ∉ (classifyLoop runs idxs kls).1.getD i []))
    ∧ ∀ x, x ∈ (classifyLoop runs idxs kls).2.2 →
        x ∉ (classifyLoop runs idxs kls).2.1 := by
  constructor
  · intro r hr
    refine ⟨fun h0 => ⟨?_, ?_, ?_⟩, fun h1 => ⟨?_, ?_, ?_, ?_⟩,
      fun h2 => ⟨?_, ?_, ?_⟩⟩
    · exact (mem_undef_iff runs idxs kls _).mpr ⟨r, hr, h0, rfl⟩
    · intro hmem
      obtain ⟨r2, _, hc2, hx⟩ := (mem_unres_iff runs idxs kls _).mp hmem
      rw [outOf_inj hx] at h0; omega
    · intro i hmem
      obtain ⟨r2, _, hc2, _, hx⟩ := (mem_class_iff runs idxs kls i _).mp hmem
      rw [outOf_inj hx] at h0; omega
    · exact (mem_class_iff runs idxs kls _ _).mpr ⟨r, hr, h1, rfl, rfl⟩
    · intro j hj hmem
      obtain ⟨r2, _, _, hi2, hx⟩ := (mem_class_iff runs idxs kls j _).mp hmem
      rw [← outOf_inj hx] at hi2
      exact hj hi2.symm
    · intro hmem
      obtain ⟨r2, _, hc2, hx⟩ := (mem_unres_iff runs idxs kls _).mp hmem
      rw [outOf_inj hx] at h1; omega
    · intro hmem
      obtain ⟨r2, _, hc2, hx⟩ := (mem_undef_iff runs idxs kls _).mp hmem
      rw [outOf_inj hx] at h1; omega
    · exact (mem_unres_iff runs idxs kls _).mpr ⟨r, hr, by omega, rfl⟩
    · intro hmem
      obtain ⟨r2, _, hc2, hx⟩ := (mem_undef_iff runs idxs kls _).mp hmem
      rw [outOf_inj hx] at h2; omega
    · intro i hmem
      obtain ⟨r2, _, hc2, _, hx⟩ := (mem_class_iff runs idxs kls i _).mp hmem
      rw [outOf_inj hx] at h2; omega
  · intro x hmem hmem2
    obtain ⟨r1, _, hc1, hx1⟩ := (mem_undef_iff runs idxs kls x).mp hmem
    obtain ⟨r2, _, hc2, hx2⟩ := (mem_unres_iff runs idxs kls x).mp hmem2
    rw [hx1] at hx2
    rw [outOf_inj hx2] at hc1; omega

/-- C2 witness: in the spec's worked example, the uniquely matching row
lands in its class bucket, with hypotheses checked on concrete data. -/
theorem classify_count_determines_placement_witness :
    outOf ["tumor s"] [0] [["tumor"], ["blood"]] ∈
      (classifyLoop [["tumor s"], ["blood tumor"], ["water"]] [0]
          [["tumor"], ["blood"]]).1.getD
        (idxOfTrue (boolsOf ["tumor s"] [0] [["tumor"], ["blood"]])) [] :=
  (((classify_count_determines_placement
        [["tumor s"], ["blood tumor"], ["water"]] [0]
        [["tumor"], ["blood"]]).1 ["tumor s"] (by decide)).2.1 (by decide)).1

/-- C1: running the Sample Filter and then the Run Classifier partitions the
input table — stripping the appended keyword suffix, the excluded, per-class,
unresolved and undefined partitions together are a permutation of the table,
and the partitions are pairwise disjoint. -/
theorem filter_classify_partition (table : List (List String))
    (idxs : List Nat) (bl : List String) (kls : List (List String)) :
    List.Perm table
      ((filterRuns table idxs bl).1 ++
        (((classifyLoop (filterRuns table idxs bl).2 idxs kls).1.flatten ++
            (classifyLoop (filterRuns table idxs bl).2 idxs kls).2.1 ++
            (classifyLoop (filterRuns table idxs bl).2 idxs kls).2.2).map
          (fun x => x.take (x.length - kls.length))))
    ∧ (∀ x, x ∈ (classifyLoop (filterRuns table idxs bl).2 idxs kls).2.1 →
        x ∉ (classifyLoop (filterRuns table idxs bl).2 idxs kls).2.2)
    ∧ (∀ x i,
        x ∈ (classifyLoop (filterRuns table idxs bl).2 idxs kls).1.getD i [] →
        x ∉ (classifyLoop (filterRuns table idxs bl).2 idxs kls).2.1
        ∧ x ∉ (classifyLoop (filterRuns table idxs bl).2 idxs kls).2.2)
    ∧ (∀ x i j, i ≠ j →
        x ∈ (classifyLoop (filterRuns table idxs bl).2 idxs kls).1.getD i [] →
        x ∉ (classifyLoop (filterRuns table idxs bl).2 idxs kls).1.getD j [])
    ∧ (∀ e, e ∈ (filterRuns table idxs bl).1 →
        ∀ x, x ∈ (classifyLoop (filterRuns table idxs bl).2 idxs kls).1.flatten ++
            (classifyLoop (filterRuns table idxs bl).2 idxs kls).2.1 ++
            (classifyLoop (filterRuns table idxs bl).2 idxs kls).2.2 →
          x.take (x.length - kls.length) ≠ e) := by
  refine ⟨?_, ?_, ?_, ?_, ?_⟩
  · have h1 : List.Perm table
        ((filterRuns table idxs bl).1 ++ (filterRuns table idxs bl).2) := by
      rw [filterRuns_eq]
      exact (List.filter_append_perm _ table).symm
    have h2 := (classifyLoop_perm (filterRuns table idxs bl).2 idxs kls).map
      (fun x => x.take (x.length - kls.length))
    rw [map_strip_of_map_out] at h2
    exact h1.trans (h2.symm.append_left _)
  · intro x hmem hmem2
    obtain ⟨r1, _, hc1, hx1⟩ := (mem_unres_iff _ idxs kls x).mp hmem
    obtain ⟨r2, _, hc2, hx2⟩ := (mem_undef_iff _ idxs kls x).mp hmem2
    rw [hx1] at hx2
    rw [outOf_inj hx2] at hc1; omega
  · intro x i hmem
    obtain ⟨r1, _, hc1, _, hx1⟩ := (mem_class_iff _ idxs kls i x).mp hmem
    constructor
    · intro hmem2
      obtain ⟨r2, _, hc2, hx2⟩ := (mem_unres_iff _ idxs kls x).mp hmem2
      rw [hx1] at hx2
      rw [outOf_inj hx2] at hc1; omega
    · intro hmem2
      obtain ⟨r2, _, hc2, hx2⟩ := (mem_undef_iff _ idxs kls x).mp hmem2
      rw [hx1] at hx2
      rw [outOf_inj hx2] at hc1; omega
  · intro x i j hij hmem hmem2
    obtain ⟨r1, _, hc1, hi1, hx1⟩ := (mem_class_iff _ idxs kls i x).mp hmem
    obtain ⟨r2, _, hc2, hi2, hx2⟩ := (mem_class_iff _ idxs kls j x).mp hmem2
    rw [hx1] at hx2
    rw [outOf_inj hx2] at hi1
    exact hij (hi1 ▸ hi2 ▸ rfl)
  · intro e he x hx hstrip
    obtain ⟨r2, hr2, hx2⟩ := exists_src_of_mem_parts _ idxs kls x hx
    have hre : r2 = e := by
      rw [hx2, strip_outOf] at hstrip
      exact hstrip
    have hhit : (is_key_in_run e idxs bl).1 = true := by
      rw [filterRuns_eq] at he
      exact (List.mem_filter.mp he).2
    have hmiss : (is_key_in_run r2 idxs bl).1 = false := by
      rw [filterRuns_eq] at hr2
      have := (List.mem_filter.mp hr2).2
      cases hb : (is_key_in_run r2 idxs bl).1 with
      | false => rfl
      | true => rw [hb] at this; simp at this
    rw [hre, hhit] at hmiss
    simp at hmiss

/-- C1 witness: the partition permutation and one disjointness instance on
the spec's worked example (blacklist hits one row, classes tumor/blood). -/
theorem filter_classify_partition_witness :
    List.Perm [["qc bad"], ["tumor s"], ["blood tumor"], ["water"]]
      ([["qc bad"]] ++ [["tumor s"], ["blood tumor"], ["water"]])
    ∧ (["blood tumor", "tumor", "blood"] : List String) ∉
        [(["water", "", ""] : List String)] :=
  ⟨(filter_classify_partition
      [["qc bad"], ["tumor s"], ["blood tumor"], ["water"]] [0] ["qc"]
      [["tumor"], ["blood"]]).1,
    (filter_classify_partition
        [["qc bad"], ["tumor s"], ["blood tumor"], ["water"]] [0] ["qc"]
        [["tumor"], ["blood"]]).2.1
      ["blood tumor", "tumor", "blood"] (by decide)⟩

/-- C4: every emitted row carries exactly one appended identified-keyword
field per class in mapping order; the field is the empty string when the
class does not match and otherwise the positionally first matching keyword
(fields in search order, then keywords in list order) of that class on the
row as grown so far; the recorded keyword never influences the branch taken,
which is a function of the match booleans alone. -/
theorem classify_identified_keyword_fields (run : List String)
    (idxs : List Nat) (kls : List (List String)) (i : Nat)
    (h : i < kls.length) :
    (keysOf run idxs kls).length = kls.length
    ∧ (classifyRow run idxs kls).1 = run ++ keysOf run idxs kls
    ∧ (keysOf run idxs kls).getD i "" =
        (is_key_in_run (run ++ (keysOf run idxs kls).take i) idxs
          (kls.getD i [])).2
    ∧ ((is_key_in_run (run ++ (keysOf run idxs kls).take i) idxs
          (kls.getD i [])).1 = false →
        (keysOf run idxs kls).getD i "" = "")
    ∧ ((is_key_in_run (run ++ (keysOf run idxs kls).take i) idxs
          (kls.getD i [])).1 = true →
        ∃ fi ki, fi < idxs.length ∧ ki < (kls.getD i []).length ∧
          (keysOf run idxs kls).getD i "" = (kls.getD i []).getD ki "" ∧
          containsCI
            ((run ++ (keysOf run idxs kls).take i).getD (idxs.getD fi 0) "")
            ((kls.getD i []).getD ki "") = true ∧
          (∀ fi2, fi2 < fi → ∀ k ∈ kls.getD i [],
            containsCI
              ((run ++ (keysOf run idxs kls).take i).getD (idxs.getD fi2 0) "")
              k = false) ∧
          (∀ ki2, ki2 < ki →
            containsCI
              ((run ++ (keysOf run idxs kls).take i).getD (idxs.getD fi 0) "")
              ((kls.getD i []).getD ki2 "") = false))
    ∧ (∀ r1 r2 : List String, boolsOf r1 idxs kls = boolsOf r2 idxs kls →
        runDest r1 idxs kls = runDest r2 idxs kls) := by
  refine ⟨keysOf_length run idxs kls, by rw [classifyRow_eq]; rfl,
    keysOf_getD run idxs kls i h, ?_, ?_, ?_⟩
  · intro hfalse
    rw [keysOf_getD run idxs kls i h, iskir_eq_of_fst_false _ _ _ hfalse]
  · intro htrue
    obtain ⟨fi, ki, hfi, hki, hsnd, hc, hfields, hkeys⟩ :=
      iskir_first _ idxs (kls.getD i []) htrue
    exact ⟨fi, ki, hfi, hki, (keysOf_getD run idxs kls i h).trans hsnd, hc,
      hfields, hkeys⟩
  · intro r1 r2 heq
    unfold runDest
    rw [heq]

/-- C4 witness: on a concrete non-matching class the recorded keyword is the
empty string. -/
theorem classify_identified_keyword_fields_witness :
    (keysOf ["water"] [0] [["tumor"], ["blood"]]).getD 0 "" = "" :=
  (classify_identified_keyword_fields ["water"] [0] [["tumor"], ["blood"]] 0
      (by decide)).2.2.2.1 (by decide)

theorem splitByAccess_count (runs : List (List String)) (pa : String → String)
    (x : List String) :
    (splitByAccess runs pa).1.count x + (splitByAccess runs pa).2.count x ≤
      runs.count x := by
  induction runs with
  | nil => simp [splitByAccess]
  | cons run rest ih =>
    simp only [splitByAccess]
    by_cases h1 : (pa (run.getD 58 "") == "controlled") = true
    · simp only [if_pos h1, List.count_cons]
      omega
    · by_cases h2 : (pa (run.getD 58 "") == "public") = true
      · simp only [if_neg h1, if_pos h2, List.count_cons]
        omega
      · simp only [if_neg h1, if_neg h2, List.count_cons]
        omega

theorem splitByAccess_length (runs : List (List String)) (pa : String → String) :
    (splitByAccess runs pa).1.length + (splitByAccess runs pa).2.length ≤
      runs.length := by
  induction runs with
  | nil => simp [splitByAccess]
  | cons run rest ih =>
    simp only [splitByAccess, List.length_cons]
    by_cases h1 : (pa (run.getD 58 "") == "controlled") = true
    · simp only [if_pos h1, List.length_cons]
      omega
    · by_cases h2 : (pa (run.getD 58 "") == "public") = true
      · simp only [if_neg h1, if_pos h2, List.length_cons]
        omega
      · simp only [if_neg h1, if_neg h2]
        omega

theorem splitByAccess_eq (runs : List (List String)) (pa : String → String) :
    splitByAccess runs pa =
      (runs.filter (fun run => pa (run.getD 58 "") == "public"),
        runs.filter (fun run => pa (run.getD 58 "") == "controlled")) := by
  induction runs with
  | nil => rfl
  | cons run rest ih =>
    by_cases h1 : pa (run[58]?.getD "") = "controlled"
    · simp [splitByAccess, List.filter_cons, h1, ih]
    · by_cases h2 : pa (run[58]?.getD "") = "public"
      · simp [splitByAccess, List.filter_cons, h1, h2, ih]
      · simp [splitByAccess, List.filter_cons, h1, h2, ih]

theorem splitByAccess_mem (runs : List (List String)) (pa : String → String)
    (run : List String) (h : run ∈ runs) :
    run ∈ (splitByAccess runs pa).1 ∨ run ∈ (splitByAccess runs pa).2
    ∨ (pa (run.getD 58 "") ≠ "public" ∧ pa (run.getD 58 "") ≠ "controlled") := by
  rw [splitByAccess_eq]
  by_cases h1 : pa (run[58]?.getD "") = "controlled"
  · exact Or.inr (Or.inl (List.mem_filter.mpr ⟨h, by simp [h1]⟩))
  · by_cases h2 : pa (run[58]?.getD "") = "public"
    · exact Or.inl (List.mem_filter.mpr ⟨h, by simp [h2]⟩)
    · refine Or.inr (Or.inr ⟨?_, ?_⟩)
      · simpa using h2
      · simpa using h1

theorem flatten_pair_length (cls : List (List (List String)))
    (pa : String → String) :
    ((cls.map (fun runs =>
      [(splitByAccess runs pa).1, (splitByAccess runs pa).2])).flatten).length =
      2 * cls.length := by
  induction cls with
  | nil => rfl
  | cons c rest ih =>
    simp only [List.map_cons, List.flatten_cons, List.length_append, ih,
      List.length_cons]
    simp
    omega

theorem flatten_pair_sum (cls : List (List (List String)))
    (pa : String → String) :
    (((cls.map (fun runs =>
        [(splitByAccess runs pa).1, (splitByAccess runs pa).2])).flatten).map
      List.length).sum ≤ (cls.map List.length).sum := by
  induction cls with
  | nil => exact Nat.le_refl 0
  | cons c rest ih =>
    have hc := splitByAccess_length c pa
    simp only [List.map_cons, List.flatten_cons, List.map_append,
      List.sum_append, List.sum_cons]
    simp only [List.map_cons, List.sum_cons, List.map_nil, List.sum_nil]
    omega

theorem repartitionByAccess_eq (cls : List (List (List String)))
    (names : List String) (pa : String → String)
    (h : names.length = cls.length) :
    (repartitionByAccess cls names pa).1 =
      (cls.map (fun runs =>
        [(splitByAccess runs pa).1, (splitByAccess runs pa).2])).flatten
    ∧ (repartitionByAccess cls names pa).2 =
      (names.map (fun n => [n ++ "_public", n ++ "_controlled_access"])).flatten := by
  induction cls generalizing names with
  | nil =>
    cases names with
    | nil => simp [repartitionByAccess]
    | cons n t => simp at h
  | cons c rest ih =>
    cases names with
    | nil => simp at h
    | cons n rnames =>
      obtain ⟨h1, h2⟩ := ih rnames (by simpa using h)
      simp [repartitionByAccess, h1, h2]

/-- C6: with aligned class and name lists, the Access-Status Enricher
re-partitions every class into exactly two buckets named `<class>_public`
and `<class>_controlled_access`; each input row goes to the public bucket,
the controlled bucket, or is dropped because its status is neither; rows are
never duplicated (counted with multiplicity) and the total output row count
never exceeds the input row count. -/
theorem access_repartition_two_subclasses (cls : List (List (List String)))
    (names : List String) (pa : String → String)
    (h : names.length = cls.length) :
    (repartitionByAccess cls names pa).2 =
        (names.map (fun n =>
          [n ++ "_public", n ++ "_controlled_access"])).flatten
    ∧ (repartitionByAccess cls names pa).1 =
        (cls.map (fun runs =>
          [(splitByAccess runs pa).1, (splitByAccess runs pa).2])).flatten
    ∧ (repartitionByAccess cls names pa).1.length = 2 * cls.length
    ∧ (∀ runs x,
        (splitByAccess runs pa).1.count x + (splitByAccess runs pa).2.count x ≤
          runs.count x)
    ∧ (∀ runs run, run ∈ runs →
        run ∈ (splitByAccess runs pa).1 ∨ run ∈ (splitByAccess runs pa).2
        ∨ (pa (run.getD 58 "") ≠ "public" ∧ pa (run.getD 58 "") ≠ "controlled"))
    ∧ ((repartitionByAccess cls names pa).1.map List.length).sum ≤
        (cls.map List.length).sum := by
  obtain ⟨he1, he2⟩ := repartitionByAccess_eq cls names pa h
  refine ⟨he2, he1, ?_, fun runs x => splitByAccess_count runs pa x,
    fun runs run hr => splitByAccess_mem runs pa run hr, ?_⟩
  · rw [he1]
    exact flatten_pair_length cls pa
  · rw [he1]
    exact flatten_pair_sum cls pa

/-- C6 witness: one class, one row, an always-public status map — the two
derived bucket names appear and the row lands in the public bucket. -/
theorem access_repartition_two_subclasses_witness :
    (repartitionByAccess [[["a"]]] ["cancer"] (fun _ => "public")).2 =
        ["cancer_public", "cancer_controlled_access"]
    ∧ ((["a"] : List String) ∈ (splitByAccess [["a"]] (fun _ => "public")).1
        ∨ (["a"] : List String) ∈ (splitByAccess [["a"]] (fun _ => "public")).2
        ∨ ((fun _ => "public") ((["a"] : List String).getD 58 "") ≠ "public"
          ∧ (fun _ => "public") ((["a"] : List String).getD 58 "") ≠ "controlled")) :=
  ⟨(access_repartition_two_subclasses [[["a"]]] ["cancer"] (fun _ => "public")
      (by decide)).1,
    (access_repartition_two_subclasses [[["a"]]] ["cancer"] (fun _ => "public")
        (by decide)).2.2.2.2.1 [["a"]] ["a"] (by decide)⟩

/-- C7 evidence: a malformed XML response to the id lookup raises
`ExpatError`, which the handler `except IOError` does not catch, so the
failure escapes `get_id_from_accn` and aborts `check_access_status`; by
contrast the summary lookup (`get_access_info`) recovers from the same
malformed response with empty status strings. -/
theorem id_lookup_parse_failure_propagates :
    get_id_from_accn "SRR1" (fun _ => ParseResult.expatError) =
        Except.error PyErr.expatError
    ∧ (get_access_info "7" (fun _ => ParseResult.expatError)).1 = ["", ""]
    ∧ check_access_status [[["r"]]] ["cancer"]
        { esearch := fun _ => ParseResult.expatError,
          esummary := fun _ => ParseResult.ok (Xml.text "") } =
        Except.error PyErr.expatError :=
  ⟨rfl, rfl, rfl⟩

/-- C8 evidence: on the sentinel id `"-1"` the summary fetch returns the
3-tuple `("", "", "")` immediately with zero network requests, but the
caller unpacks two values from it, so the run aborts with a `ValueError`
instead of proceeding with an undetermined status. -/
theorem not_found_sentinel_unpack_failure :
    (∀ esummary : String → ParseResult,
        get_access_info "-1" esummary = (["", "", ""], 0))
    ∧ check_access_status [[["r"]]] ["cancer"]
        { esearch := fun _ => ParseResult.ok (Xml.node []),
          esummary := fun _ => ParseResult.ok (Xml.text "") } =
        Except.error PyErr.valueError :=
  ⟨fun _ => rfl, rfl⟩

end QuerySra
